import Mathlib

/-!
Verification of the dashboard widget layout engine of this repository.

The embedded code lives in `src/components/settings/AccountSettingsPage.tsx`:

* `compactLayoutsUtil` (lines 307-354): greedy first-fit compaction of a
  widget layout over a fixed 12-column grid, with a bounded 100-row scan and
  a fallback placement at column 0, row `2 * Object.keys(compacted).length`.
* `findNextGridPosition` (lines 564-590): first-fit search for the next free
  slot for a new widget, same 100-row bound, fallback `(0, 2 * #entries)`.
* `parseWidgetLayouts` (lines 445-461): defensive loader of the persisted
  layout value.

Modelling decisions:

* Coordinates and sizes are `Nat`, following the data model of the spec
  (`x, y, w, h ≥ 0`); the source guard `x < 0` of `canPlace` is vacuous here.
* A JS object keyed by widget id is modelled as an association list
  (`Layout`); `lookup` is field access, `objInsert` is property assignment
  (overwrites in place, appends new keys, as JS object assignment does).
* The mutable `grid: boolean[][]` is modelled as the list of occupied cells
  `(row, col)`; `grid[r]?.[c]` is truthy exactly when `(r, c)` is a member,
  missing rows read as free, and `occupy` may mark columns `≥ 12`, exactly
  as the source array writes do.
* The JS for-loops `for (y = 0; y < 100)` and `for (x = 0; x <= 12 - w)`
  become bounded scans `scanFirst`/`scanFirstSome`; the count
  `GRID_COLS + 1 - w` (truncated `Nat` subtraction) is empty exactly when
  `12 - w < 0` in JS, i.e. the loop body never runs.
* `Array.prototype.sort` with comparator `a.y - b.y || a.x - b.x` is stable
  (ES2019); it is modelled by a stable insertion sort on the key `(y, x)`.
* `JSON.parse` is an external platform primitive; the loader is parameterised
  by an abstract `parse : String → Option JSVal` (`none` = parse throws).
-/

namespace DashGrid

/-- `GRID_COLS = 12` (AccountSettingsPage.tsx:304, and `COLS` at line 565). -/
def GRID_COLS : Nat := 12

/-- A widget placement `{x, y, w, h}` (grid units). -/
structure Rect where
  x : Nat
  y : Nat
  w : Nat
  h : Nat
deriving DecidableEq, Repr

abbrev Key := String

/-- A JS object mapping widget key to placement, as an association list. -/
abbrev Layout := List (Key × Rect)

/-- An occupied grid cell, as `(row, col)`. -/
abbrev Cell := Nat × Nat

/-- The occupancy grid: the list of occupied cells. -/
abbrev Grid := List Cell

/-- JS property read `m[k]`: first binding of `k`, if any. -/
def lookup : Layout → Key → Option Rect
  | [], _ => none
  | (k, r) :: m, key => if k = key then some r else lookup m key

/-- JS property write `m[k] = r`: overwrite in place, else append. -/
def objInsert : Layout → Key → Rect → Layout
  | [], k, r => [(k, r)]
  | (k', r') :: m, k, r =>
    if k' = k then (k', r) :: m else (k', r') :: objInsert m k r

/-- The cells of a `w × h` footprint whose top-left cell is `(y, x)`:
rows `y ≤ row < y + h`, columns `x ≤ col < x + w` (the double loop of
`occupy`, AccountSettingsPage.tsx:326-333). -/
def footprint (x y w h : Nat) : List Cell :=
  (List.range h).flatMap (fun dy => (List.range w).map (fun dx => (y + dy, x + dx)))

/-- Footprint of a placement record. -/
def footprintR (r : Rect) : List Cell := footprint r.x r.y r.w r.h

/-- Truthiness of `grid[c.1]?.[c.2]`. -/
def occupiedB (g : Grid) (c : Cell) : Bool := g.any (fun d => decide (d = c))

/-- `canPlace` (AccountSettingsPage.tsx:316-324).  The source guard
`x < 0 || x + w > GRID_COLS` loses its first disjunct over `Nat`. -/
def canPlace (g : Grid) (x y w h : Nat) : Bool :=
  if GRID_COLS < x + w then false
  else (footprint x y w h).all (fun c => !occupiedB g c)

/-- `for (i = s; i < s + n; i++) if (p i) return i` — first hit of a bounded
ascending scan. -/
def scanFirst (p : Nat → Bool) : Nat → Nat → Option Nat
  | _, 0 => none
  | s, n + 1 => if p s then some s else scanFirst p (s + 1) n

/-- Bounded ascending scan returning the first `some` of `f`. -/
def scanFirstSome {α : Type} (f : Nat → Option α) : Nat → Nat → Option α
  | _, 0 => none
  | s, n + 1 =>
    match f s with
    | some a => some a
    | none => scanFirstSome f (s + 1) n

/-- The double placement loop of `compactLayoutsUtil`
(AccountSettingsPage.tsx:337-345): rows `0 ≤ y < 100` outer, columns
`0 ≤ x ≤ 12 - w` inner, first `(x, y)` accepted by `canPlace`. -/
def findPos (g : Grid) (w h : Nat) : Option (Nat × Nat) :=
  scanFirstSome
    (fun y => (scanFirst (fun x => canPlace g x y w h) 0 (GRID_COLS + 1 - w)).map
      (fun x => (x, y)))
    0 100

/-- `visibleKeys.filter(key => layouts[key]).map(key => ({key, ...}))`
(AccountSettingsPage.tsx:308-310); placement values are objects, hence
truthy exactly when present. -/
def itemsOf (L : Layout) (V : List Key) : List (Key × Rect) :=
  V.filterMap (fun k => (lookup L k).map (fun r => (k, r)))

/-- Strict comparator order underlying `(a, b) => a.y - b.y || a.x - b.x`. -/
def keyLt (a b : Key × Rect) : Bool :=
  decide (a.2.y < b.2.y) || (decide (a.2.y = b.2.y) && decide (a.2.x < b.2.x))

/-- Stable insertion of an earlier element in front of its ties. -/
def insertOrd (it : Key × Rect) : List (Key × Rect) → List (Key × Rect)
  | [] => [it]
  | b :: bs => if keyLt b it then b :: insertOrd it bs else it :: b :: bs

/-- Stable sort by ascending `(y, x)` (AccountSettingsPage.tsx:311). -/
def sortItems (l : List (Key × Rect)) : List (Key × Rect) := l.foldr insertOrd []

/-- One processed widget of a compaction run: key, assigned placement, and
whether the bounded scan placed it (`viaScan = false` is the fallback branch,
AccountSettingsPage.tsx:346-350). -/
structure Placed where
  k : Key
  r : Rect
  viaScan : Bool
deriving DecidableEq, Repr

/-- The `items.forEach` loop of `compactLayoutsUtil`
(AccountSettingsPage.tsx:335-351), processing `items` against the running
object `acc` and occupancy `g`; returns the final object and the trace of
placements in processing order. -/
def placeItems : List (Key × Rect) → Layout → Grid → Layout × List Placed
  | [], acc, _ => (acc, [])
  | (k, r) :: rest, acc, g =>
    match findPos g r.w r.h with
    | some p =>
      let r2 : Rect := ⟨p.1, p.2, r.w, r.h⟩
      let res := placeItems rest (objInsert acc k r2) (footprint p.1 p.2 r.w r.h ++ g)
      (res.1, ⟨k, r2, true⟩ :: res.2)
    | none =>
      let r2 : Rect := ⟨0, 2 * acc.length, r.w, r.h⟩
      let res := placeItems rest (objInsert acc k r2) (footprint 0 (2 * acc.length) r.w r.h ++ g)
      (res.1, ⟨k, r2, false⟩ :: res.2)

/-- `compactLayoutsUtil` (AccountSettingsPage.tsx:307-354). -/
def compactLayoutsUtil (L : Layout) (V : List Key) : Layout :=
  (placeItems (sortItems (itemsOf L V)) [] []).1

/-- The processing trace of `compactLayoutsUtil` on the same input. -/
def compactTrace (L : Layout) (V : List Key) : List Placed :=
  (placeItems (sortItems (itemsOf L V)) [] []).2

/-- Occupancy contributed by one existing placement in
`findNextGridPosition` (AccountSettingsPage.tsx:567-575): rows
`y ≤ row < y + h`, columns `x ≤ col < min (x + w) 12` (the column loop is
clamped at `COLS`). -/
def clampedFootprint (r : Rect) : List Cell :=
  (List.range r.h).flatMap
    (fun dy => (List.range (min (r.x + r.w) GRID_COLS - r.x)).map
      (fun dx => (r.y + dy, r.x + dx)))

/-- The occupancy grid `findNextGridPosition` builds from all entries. -/
def buildGrid (L : Layout) : Grid :=
  L.foldl (fun g kr => clampedFootprint kr.2 ++ g) []

/-- The inner `fits` check of `findNextGridPosition`
(AccountSettingsPage.tsx:579-585): occupancy only, no column-bound check
(the candidate range already enforces it). -/
def fitsAt (g : Grid) (w h x y : Nat) : Bool :=
  (footprint x y w h).all (fun c => !occupiedB g c)

/-- `findNextGridPosition` (AccountSettingsPage.tsx:564-590): first-fit scan
over rows `0..99` and columns `0..12 - w`, with fallback
`(0, 2 * Object.keys(existingLayouts).length)`. -/
def findNextGridPosition (L : Layout) (w h : Nat) : Nat × Nat :=
  match scanFirstSome
      (fun y => (scanFirst (fun x => fitsAt (buildGrid L) w h x y) 0 (GRID_COLS + 1 - w)).map
        (fun x => (x, y)))
      0 100 with
  | some p => p
  | none => (0, 2 * L.length)

/-- A JSON-compatible stored value, as discriminated by `typeof` in the
source.  `jnull` has JS `typeof` "object" but is excluded by the
`parsed !== null` guard. -/
inductive JSVal where
  | jnull
  | jbool (b : Bool)
  | jnum (n : Int)
  | jstr (s : String)
  | jobj (m : Layout)
deriving DecidableEq

/-- JS truthiness of a stored value. -/
def isTruthy : JSVal → Bool
  | .jnull => false
  | .jbool b => b
  | .jnum n => decide (n ≠ 0)
  | .jstr s => decide (s ≠ "")
  | .jobj _ => true

/-- `parseWidgetLayouts` (AccountSettingsPage.tsx:445-461), parameterised by
the abstract JSON parser (`none` models a `JSON.parse` throw, caught by the
source's `try`/`catch`).  The stored value `v` is
`dashboardPrefs?.layout_view` (`none` = absent). -/
def parseWidgetLayouts (parse : String → Option JSVal) (v : Option JSVal) : Layout :=
  match v with
  | none => []
  | some val =>
    if isTruthy val = false then []
    else
      match val with
      | .jobj m => m
      | .jstr s =>
        match parse s with
        | some (.jobj m) => m
        | _ => []
      | _ => []

/-! ### Basic lemmas about the map and grid primitives -/

theorem lookup_eq_some_mem {L : Layout} {k : Key} {r : Rect}
    (h : lookup L k = some r) : (k, r) ∈ L := by
  induction L with
  | nil => simp [lookup] at h
  | cons kr m ih =>
    obtain ⟨k', r'⟩ := kr
    by_cases hk : k' = k
    · subst hk
      simp [lookup] at h
      simp [h]
    · simp [lookup, hk] at h
      exact List.mem_cons_of_mem _ (ih h)

theorem lookup_objInsert (m : Layout) (k : Key) (r : Rect) (key : Key) :
    lookup (objInsert m k r) key = if k = key then some r else lookup m key := by
  induction m with
  | nil => simp [objInsert, lookup]
  | cons kr m ih =>
    obtain ⟨k', r'⟩ := kr
    by_cases h1 : k' = k
    · subst h1
      by_cases h2 : k' = key <;> simp [objInsert, lookup, h2]
    · have hne : ¬ (k = k') := fun he => h1 he.symm
      by_cases h2 : k' = key
      · subst h2
        simp [objInsert, lookup, h1, hne]
      · simp [objInsert, lookup, h1, h2, ih]

theorem mem_keys_objInsert (m : Layout) (k : Key) (r : Rect) (key : Key) :
    key ∈ (objInsert m k r).map Prod.fst ↔ key ∈ m.map Prod.fst ∨ key = k := by
  induction m with
  | nil => simp [objInsert]
  | cons kr m ih =>
    obtain ⟨k', r'⟩ := kr
    by_cases h1 : k' = k
    · subst h1
      have he : objInsert ((k', r') :: m) k' r = (k', r) :: m := by
        simp [objInsert]
      rw [he]
      simp only [List.map_cons, List.mem_cons]
      tauto
    · have he : objInsert ((k', r') :: m) k r = (k', r') :: objInsert m k r := by
        simp [objInsert, h1]
      rw [he]
      simp only [List.map_cons, List.mem_cons, ih]
      tauto

theorem nodup_keys_objInsert (m : Layout) (k : Key) (r : Rect)
    (h : (m.map Prod.fst).Nodup) : ((objInsert m k r).map Prod.fst).Nodup := by
  induction m with
  | nil => simp [objInsert]
  | cons kr m ih =>
    obtain ⟨k', r'⟩ := kr
    rw [List.map_cons, List.nodup_cons] at h
    by_cases h1 : k' = k
    · subst h1
      have he : objInsert ((k', r') :: m) k' r = (k', r) :: m := by
        simp [objInsert]
      rw [he, List.map_cons, List.nodup_cons]
      exact h
    · have he : objInsert ((k', r') :: m) k r = (k', r') :: objInsert m k r := by
        simp [objInsert, h1]
      rw [he, List.map_cons, List.nodup_cons]
      refine ⟨fun hmem => ?_, ih h.2⟩
      rcases (mem_keys_objInsert m k r k').mp hmem with hm | he2
      · exact h.1 hm
      · exact h1 he2

theorem mem_footprint {x y w h : Nat} {c : Cell} :
    c ∈ footprint x y w h ↔ y ≤ c.1 ∧ c.1 < y + h ∧ x ≤ c.2 ∧ c.2 < x + w := by
  obtain ⟨cy, cx⟩ := c
  simp only [footprint, List.mem_flatMap, List.mem_map, List.mem_range]
  constructor
  · rintro ⟨dy, hdy, dx, hdx, heq⟩
    have h1 : y + dy = cy := congrArg Prod.fst heq
    have h2 : x + dx = cx := congrArg Prod.snd heq
    omega
  · rintro ⟨h1, h2, h3, h4⟩
    refine ⟨cy - y, by omega, cx - x, by omega, ?_⟩
    rw [Nat.add_sub_cancel' h1, Nat.add_sub_cancel' h3]

theorem occupiedB_eq_true_iff {g : Grid} {c : Cell} : occupiedB g c = true ↔ c ∈ g := by
  simp [occupiedB, List.any_eq_true]

theorem occupiedB_eq_false_iff {g : Grid} {c : Cell} : occupiedB g c = false ↔ c ∉ g := by
  rw [← Bool.not_eq_true, occupiedB_eq_true_iff]

theorem canPlace_eq_true_iff {g : Grid} {x y w h : Nat} :
    canPlace g x y w h = true ↔
      x + w ≤ GRID_COLS ∧ ∀ c ∈ footprint x y w h, c ∉ g := by
  unfold canPlace
  by_cases hb : GRID_COLS < x + w
  · simp [hb]
  · simp only [if_neg hb, List.all_eq_true]
    constructor
    · intro hall
      refine ⟨by omega, fun c hc => ?_⟩
      have := hall c hc
      rw [Bool.not_eq_eq_eq_not, Bool.not_true, occupiedB_eq_false_iff] at this
      exact this
    · rintro ⟨_, hfree⟩ c hc
      rw [Bool.not_eq_eq_eq_not, Bool.not_true, occupiedB_eq_false_iff]
      exact hfree c hc

theorem canPlace_eq_false_of_wide {g : Grid} {y w h x : Nat}
    (hx : GRID_COLS + 1 - w ≤ x) : canPlace g x y w h = false := by
  unfold canPlace
  rw [if_pos (show GRID_COLS < x + w by omega)]

/-! ### Characterization of the bounded first-fit scans -/

theorem scanFirst_eq_some {p : Nat → Bool} :
    ∀ {s n x : Nat}, scanFirst p s n = some x →
      s ≤ x ∧ x < s + n ∧ p x = true ∧ ∀ j, s ≤ j → j < x → p j = false := by
  intro s n
  induction n generalizing s with
  | zero => intro x hx; simp [scanFirst] at hx
  | succ n ih =>
    intro x hx
    unfold scanFirst at hx
    by_cases hp : p s
    · rw [if_pos hp] at hx
      injection hx with hx
      subst hx
      exact ⟨Nat.le_refl _, by omega, hp, fun j h1 h2 => by omega⟩
    · rw [if_neg hp] at hx
      obtain ⟨h1, h2, h3, h4⟩ := ih hx
      simp only [Bool.not_eq_true] at hp
      refine ⟨by omega, by omega, h3, fun j hj1 hj2 => ?_⟩
      rcases Nat.eq_or_lt_of_le hj1 with he | hl
      · exact he ▸ hp
      · exact h4 j hl hj2

theorem scanFirst_eq_none {p : Nat → Bool} :
    ∀ {s n : Nat}, scanFirst p s n = none →
      ∀ j, s ≤ j → j < s + n → p j = false := by
  intro s n
  induction n generalizing s with
  | zero => intro _ j h1 h2; omega
  | succ n ih =>
    intro hx j h1 h2
    unfold scanFirst at hx
    by_cases hp : p s
    · rw [if_pos hp] at hx
      exact absurd hx (by simp)
    · rw [if_neg hp] at hx
      simp only [Bool.not_eq_true] at hp
      rcases Nat.eq_or_lt_of_le h1 with he | hl
      · exact he ▸ hp
      · exact ih hx j hl (by omega)

theorem scanFirstSome_eq_some {α : Type} {f : Nat → Option α} :
    ∀ {s n : Nat} {a : α}, scanFirstSome f s n = some a →
      ∃ y, s ≤ y ∧ y < s + n ∧ f y = some a ∧ ∀ j, s ≤ j → j < y → f j = none := by
  intro s n
  induction n generalizing s with
  | zero => intro a ha; simp [scanFirstSome] at ha
  | succ n ih =>
    intro a ha
    unfold scanFirstSome at ha
    cases hfs : f s with
    | some b =>
      rw [hfs] at ha
      injection ha with ha
      subst ha
      exact ⟨s, Nat.le_refl _, by omega, hfs, fun j h1 h2 => by omega⟩
    | none =>
      rw [hfs] at ha
      obtain ⟨y, h1, h2, h3, h4⟩ := ih ha
      refine ⟨y, by omega, by omega, h3, fun j hj1 hj2 => ?_⟩
      rcases Nat.eq_or_lt_of_le hj1 with he | hl
      · exact he ▸ hfs
      · exact h4 j hl hj2

theorem scanFirstSome_eq_none {α : Type} {f : Nat → Option α} :
    ∀ {s n : Nat}, scanFirstSome f s n = none →
      ∀ j, s ≤ j → j < s + n → f j = none := by
  intro s n
  induction n generalizing s with
  | zero => intro _ j h1 h2; omega
  | succ n ih =>
    intro ha j h1 h2
    unfold scanFirstSome at ha
    cases hfs : f s with
    | some b => rw [hfs] at ha; exact absurd ha (by simp)
    | none =>
      rw [hfs] at ha
      rcases Nat.eq_or_lt_of_le h1 with he | hl
      · exact he ▸ hfs
      · exact ih ha j hl (by omega)

/-- The row-major placement scan, if it succeeds, returns an acceptable
position that is lexicographically least in `(y, x)` among all acceptable
positions with `y < 100`. -/
theorem findPos_some {g : Grid} {w h x y : Nat}
    (hf : findPos g w h = some (x, y)) :
    y < 100 ∧ canPlace g x y w h = true ∧
      ∀ y' x', y' < 100 → (y' < y ∨ (y' = y ∧ x' < x)) →
        canPlace g x' y' w h = false := by
  unfold findPos at hf
  obtain ⟨y₀, _, hy₀lt, hfy, hnone⟩ := scanFirstSome_eq_some hf
  have hfy2 : (scanFirst (fun x => canPlace g x y₀ w h) 0 (GRID_COLS + 1 - w)).map
      (fun x => (x, y₀)) = some (x, y) := hfy
  cases hsf : scanFirst (fun x => canPlace g x y₀ w h) 0 (GRID_COLS + 1 - w) with
  | none => rw [hsf] at hfy2; simp at hfy2
  | some x₀ =>
    rw [hsf] at hfy2
    simp only [Option.map_some'] at hfy2
    injection hfy2 with hfy2
    have hx₀ : x₀ = x := congrArg Prod.fst hfy2
    have hy₀ : y₀ = y := congrArg Prod.snd hfy2
    subst hx₀
    subst hy₀
    obtain ⟨_, hxlt, hpx, hxmin⟩ := scanFirst_eq_some hsf
    refine ⟨by omega, hpx, ?_⟩
    intro y' x' hy' hlt
    rcases hlt with hlt | ⟨rfl, hxlt'⟩
    · have hn : (scanFirst (fun x => canPlace g x y' w h) 0 (GRID_COLS + 1 - w)).map
          (fun x => (x, y')) = none := hnone y' (Nat.zero_le _) (by omega)
      cases hsf' : scanFirst (fun x => canPlace g x y' w h) 0 (GRID_COLS + 1 - w) with
      | some x₁ => rw [hsf'] at hn; simp at hn
      | none =>
        by_cases hx' : x' < GRID_COLS + 1 - w
        · exact scanFirst_eq_none hsf' x' (Nat.zero_le _) (by omega)
        · exact canPlace_eq_false_of_wide (by omega)
    · exact hxmin x' (Nat.zero_le _) hxlt'

/-- If the placement scan fails, no position with `y < 100` is acceptable. -/
theorem findPos_none {g : Grid} {w h : Nat} (hf : findPos g w h = none) :
    ∀ y x, y < 100 → canPlace g x y w h = false := by
  intro y x hy
  unfold findPos at hf
  have hn : (scanFirst (fun x => canPlace g x y w h) 0 (GRID_COLS + 1 - w)).map
      (fun x => (x, y)) = none := scanFirstSome_eq_none hf y (Nat.zero_le _) (by omega)
  cases hsf : scanFirst (fun x => canPlace g x y w h) 0 (GRID_COLS + 1 - w) with
  | some x₁ => rw [hsf] at hn; simp at hn
  | none =>
    by_cases hx : x < GRID_COLS + 1 - w
    · exact scanFirst_eq_none hsf x (Nat.zero_le _) (by omega)
    · exact canPlace_eq_false_of_wide (by omega)

/-! ### Items of a compaction and the stable sort -/

theorem mem_itemsOf {L : Layout} {V : List Key} {k : Key} {r : Rect} :
    (k, r) ∈ itemsOf L V ↔ k ∈ V ∧ lookup L k = some r := by
  simp only [itemsOf, List.mem_filterMap]
  constructor
  · rintro ⟨a, ha, heq⟩
    cases hl : lookup L a with
    | none => rw [hl] at heq; simp at heq
    | some r' =>
      rw [hl] at heq
      simp only [Option.map_some'] at heq
      injection heq with heq
      have hk : a = k := congrArg Prod.fst heq
      have hr : r' = r := congrArg Prod.snd heq
      subst hk
      subst hr
      exact ⟨ha, hl⟩
  · rintro ⟨hk, hl⟩
    exact ⟨k, hk, by rw [hl]; rfl⟩

theorem keys_itemsOf (L : Layout) (V : List Key) :
    (itemsOf L V).map Prod.fst = V.filter (fun k => (lookup L k).isSome) := by
  induction V with
  | nil => rfl
  | cons v V ih =>
    have hu : itemsOf L (v :: V) =
        ((lookup L v).map (fun r => (v, r))).toList ++ itemsOf L V := by
      simp [itemsOf, List.filterMap_cons]
      cases lookup L v <;> simp
    cases hl : lookup L v with
    | none => simp [hu, hl, List.filter_cons, ih]
    | some r => simp [hu, hl, List.filter_cons, ih]

theorem nodup_keys_itemsOf {L : Layout} {V : List Key} (h : V.Nodup) :
    ((itemsOf L V).map Prod.fst).Nodup := by
  rw [keys_itemsOf]
  exact h.filter _

theorem keyLt_iff {a b : Key × Rect} :
    keyLt a b = true ↔ a.2.y < b.2.y ∨ (a.2.y = b.2.y ∧ a.2.x < b.2.x) := by
  simp [keyLt]

theorem keyLt_irrefl (a : Key × Rect) : keyLt a a = false := by
  simp [keyLt]

/-- The non-strict companion of `keyLt`: `b` need not come before `a`. -/
def keyLe (a b : Key × Rect) : Prop := keyLt b a = false

theorem keyLe_of_keyLt {a b : Key × Rect} (h : keyLt a b = true) : keyLe a b := by
  rw [keyLt_iff] at h
  unfold keyLe
  rw [← Bool.not_eq_true, keyLt_iff]
  omega

theorem keyLe_trans {a b c : Key × Rect} (h1 : keyLe a b) (h2 : keyLe b c) :
    keyLe a c := by
  unfold keyLe at h1 h2 ⊢
  rw [← Bool.not_eq_true, keyLt_iff] at h1 h2 ⊢
  omega

theorem insertOrd_perm (it : Key × Rect) (l : List (Key × Rect)) :
    (insertOrd it l).Perm (it :: l) := by
  induction l with
  | nil => simp [insertOrd]
  | cons b bs ih =>
    by_cases hb : keyLt b it
    · simp only [insertOrd, if_pos hb]
      exact (ih.cons b).trans (List.Perm.swap it b bs)
    · simp only [insertOrd, if_neg hb]
      exact List.Perm.refl _

theorem sortItems_perm (l : List (Key × Rect)) : (sortItems l).Perm l := by
  induction l with
  | nil => simp [sortItems]
  | cons a l ih =>
    have hu : sortItems (a :: l) = insertOrd a (sortItems l) := rfl
    rw [hu]
    exact (insertOrd_perm a (sortItems l)).trans (ih.cons a)

theorem insertOrd_pairwise {it : Key × Rect} {l : List (Key × Rect)}
    (h : List.Pairwise keyLe l) : List.Pairwise keyLe (insertOrd it l) := by
  induction l with
  | nil => simp [insertOrd]
  | cons b bs ih =>
    rcases List.pairwise_cons.mp h with ⟨hb, hbs⟩
    by_cases hlt : keyLt b it
    · simp only [insertOrd, if_pos hlt]
      refine List.pairwise_cons.mpr ⟨fun a ha => ?_, ih hbs⟩
      rcases List.mem_cons.mp ((insertOrd_perm it bs).mem_iff.mp ha) with rfl | hmem
      · exact keyLe_of_keyLt hlt
      · exact hb a hmem
    · simp only [insertOrd, if_neg hlt]
      have hit : keyLe it b := by
        unfold keyLe
        simpa using hlt
      refine List.pairwise_cons.mpr ⟨fun a ha => ?_, h⟩
      rcases List.mem_cons.mp ha with rfl | hmem
      · exact hit
      · exact keyLe_trans hit (hb a hmem)

theorem sortItems_pairwise (l : List (Key × Rect)) :
    List.Pairwise keyLe (sortItems l) := by
  induction l with
  | nil => simp [sortItems]
  | cons a l ih => exact insertOrd_pairwise ih

/-- A sorted permutation of a strictly sorted list is that list itself. -/
theorem sorted_perm_eq :
    ∀ {l₂ l₁ : List (Key × Rect)}, l₁.Perm l₂ → List.Pairwise keyLe l₁ →
      List.Pairwise (fun a b => keyLt a b = true) l₂ → l₁ = l₂ := by
  intro l₂
  induction l₂ with
  | nil => intro l₁ hp _ _; exact hp.eq_nil
  | cons b t₂ ih =>
    intro l₁ hp h₁ h₂
    cases l₁ with
    | nil => exact absurd hp.symm.eq_nil (by simp)
    | cons b' t₁ =>
      rcases List.pairwise_cons.mp h₁ with ⟨hb', ht₁⟩
      rcases List.pairwise_cons.mp h₂ with ⟨hb, ht₂⟩
      have hbeq : b' = b := by
        rcases List.mem_cons.mp (hp.subset (List.mem_cons_self _ _)) with h | hmem2
        · exact h
        · have hlt : keyLt b b' = true := hb b' hmem2
          rcases List.mem_cons.mp (hp.symm.subset (List.mem_cons_self _ _)) with h | hmem3
          · rw [h] at hlt
            rw [keyLt_irrefl] at hlt
            exact absurd hlt (by simp)
          · have hle : keyLt b b' = false := hb' b hmem3
            rw [hle] at hlt
            exact absurd hlt (by simp)
      subst hbeq
      rw [ih hp.cons_inv ht₁ ht₂]

/-! ### Invariants of the placement loop -/

theorem objInsert_forall {P : Key × Rect → Prop} :
    ∀ {m : Layout} {k : Key} {r : Rect},
      (∀ kr ∈ m, P kr) → P (k, r) → ∀ kr ∈ objInsert m k r, P kr := by
  intro m
  induction m with
  | nil =>
    intro k r _ hr kr hm
    simp [objInsert] at hm
    subst hm
    exact hr
  | cons b bs ih =>
    intro k r hm hr kr hmem
    obtain ⟨k', r'⟩ := b
    by_cases h1 : k' = k
    · subst h1
      have he : objInsert ((k', r') :: bs) k' r = (k', r) :: bs := by
        simp [objInsert]
      rw [he] at hmem
      rcases List.mem_cons.mp hmem with rfl | hmem2
      · exact hr
      · exact hm kr (List.mem_cons_of_mem _ hmem2)
    · have he : objInsert ((k', r') :: bs) k r = (k', r') :: objInsert bs k r := by
        simp [objInsert, h1]
      rw [he] at hmem
      rcases List.mem_cons.mp hmem with rfl | hmem2
      · exact hm _ (List.mem_cons_self _ _)
      · exact ih (fun x hx => hm x (List.mem_cons_of_mem _ hx)) hr kr hmem2

theorem objInsert_of_not_mem {m : Layout} {k : Key} (r : Rect)
    (h : k ∉ m.map Prod.fst) : objInsert m k r = m ++ [(k, r)] := by
  induction m with
  | nil => simp [objInsert]
  | cons b bs ih =>
    obtain ⟨k', r'⟩ := b
    rw [List.map_cons, List.mem_cons] at h
    push_neg at h
    have h1 : ¬ (k' = k) := fun he => h.1 he.symm
    have he : objInsert ((k', r') :: bs) k r = (k', r') :: objInsert bs k r := by
      simp [objInsert, h1]
    rw [he, ih h.2, List.cons_append]

/-- Every processed item produces exactly one trace entry, with the same key,
width and height. -/
theorem placeItems_forall2 :
    ∀ (items : List (Key × Rect)) (acc : Layout) (g : Grid),
      List.Forall₂ (fun it pl => pl.k = it.1 ∧ pl.r.w = it.2.w ∧ pl.r.h = it.2.h)
        items (placeItems items acc g).2 := by
  intro items
  induction items with
  | nil => intro acc g; simp [placeItems]
  | cons it rest ih =>
    intro acc g
    obtain ⟨k, r⟩ := it
    cases hf : findPos g r.w r.h with
    | some p =>
      simp only [placeItems, hf]
      exact List.Forall₂.cons ⟨rfl, rfl, rfl⟩ (ih _ _)
    | none =>
      simp only [placeItems, hf]
      exact List.Forall₂.cons ⟨rfl, rfl, rfl⟩ (ih _ _)

/-- Every binding of the result object comes from the trace or from the
initial object. -/
theorem placeItems_lookup :
    ∀ (items : List (Key × Rect)) (acc : Layout) (g : Grid) (key : Key) (r : Rect),
      lookup (placeItems items acc g).1 key = some r →
      (∃ pl ∈ (placeItems items acc g).2, pl.k = key ∧ pl.r = r) ∨
        lookup acc key = some r := by
  intro items
  induction items with
  | nil =>
    intro acc g key r h
    right
    simpa [placeItems] using h
  | cons it rest ih =>
    intro acc g key r h
    obtain ⟨k, r0⟩ := it
    cases hf : findPos g r0.w r0.h with
    | some p =>
      simp only [placeItems, hf] at h ⊢
      rcases ih _ _ key r h with ⟨pl, hm, hk, hr⟩ | hacc
      · exact Or.inl ⟨pl, List.mem_cons_of_mem _ hm, hk, hr⟩
      · rw [lookup_objInsert] at hacc
        by_cases hke : k = key
        · rw [if_pos hke] at hacc
          injection hacc with hacc
          exact Or.inl ⟨_, List.mem_cons_self _ _, hke, hacc⟩
        · rw [if_neg hke] at hacc
          exact Or.inr hacc
    | none =>
      simp only [placeItems, hf] at h ⊢
      rcases ih _ _ key r h with ⟨pl, hm, hk, hr⟩ | hacc
      · exact Or.inl ⟨pl, List.mem_cons_of_mem _ hm, hk, hr⟩
      · rw [lookup_objInsert] at hacc
        by_cases hke : k = key
        · rw [if_pos hke] at hacc
          injection hacc with hacc
          exact Or.inl ⟨_, List.mem_cons_self _ _, hke, hacc⟩
        · rw [if_neg hke] at hacc
          exact Or.inr hacc

theorem mem_keys_placeItems :
    ∀ (items : List (Key × Rect)) (acc : Layout) (g : Grid) (key : Key),
      key ∈ (placeItems items acc g).1.map Prod.fst ↔
        key ∈ acc.map Prod.fst ∨ key ∈ items.map Prod.fst := by
  intro items
  induction items with
  | nil => intro acc g key; simp [placeItems]
  | cons it rest ih =>
    intro acc g key
    obtain ⟨k, r0⟩ := it
    cases hf : findPos g r0.w r0.h with
    | some p =>
      simp only [placeItems, hf, ih, mem_keys_objInsert, List.map_cons, List.mem_cons]
      tauto
    | none =>
      simp only [placeItems, hf, ih, mem_keys_objInsert, List.map_cons, List.mem_cons]
      tauto

theorem nodup_keys_placeItems :
    ∀ (items : List (Key × Rect)) (acc : Layout) (g : Grid),
      (acc.map Prod.fst).Nodup → ((placeItems items acc g).1.map Prod.fst).Nodup := by
  intro items
  induction items with
  | nil => intro acc g h; simpa [placeItems] using h
  | cons it rest ih =>
    intro acc g h
    obtain ⟨k, r0⟩ := it
    cases hf : findPos g r0.w r0.h with
    | some p =>
      simp only [placeItems, hf]
      exact ih _ _ (nodup_keys_objInsert _ _ _ h)
    | none =>
      simp only [placeItems, hf]
      exact ih _ _ (nodup_keys_objInsert _ _ _ h)

/-- Column containment of every binding of the result object, given that all
item widths fit the grid. -/
theorem placeItems_bounds :
    ∀ (items : List (Key × Rect)) (acc : Layout) (g : Grid),
      (∀ it ∈ items, it.2.w ≤ GRID_COLS) →
      (∀ kr ∈ acc, kr.2.x + kr.2.w ≤ GRID_COLS) →
      ∀ kr ∈ (placeItems items acc g).1, kr.2.x + kr.2.w ≤ GRID_COLS := by
  intro items
  induction items with
  | nil =>
    intro acc g _ hacc kr hm
    simp only [placeItems] at hm
    exact hacc kr hm
  | cons it rest ih =>
    intro acc g hitems hacc kr hm
    obtain ⟨k, r0⟩ := it
    have hw : r0.w ≤ GRID_COLS := hitems (k, r0) (List.mem_cons_self _ _)
    cases hf : findPos g r0.w r0.h with
    | some p =>
      obtain ⟨px, py⟩ := p
      simp only [placeItems, hf] at hm
      refine ih _ _ (fun x hx => hitems x (List.mem_cons_of_mem _ hx))
        (objInsert_forall hacc ?_) kr hm
      have := (canPlace_eq_true_iff.mp (findPos_some hf).2.1).1
      simpa using this
    | none =>
      simp only [placeItems, hf] at hm
      refine ih _ _ (fun x hx => hitems x (List.mem_cons_of_mem _ hx))
        (objInsert_forall hacc ?_) kr hm
      simpa using hw

/-- Two placements do not share a cell. -/
def disjointFoot (a b : Placed) : Prop := ∀ c ∈ footprintR a.r, c ∉ footprintR b.r

/-- If every processed widget was placed by the scan, the placements of the
trace are pairwise disjoint and avoid the ambient occupancy. -/
theorem placeItems_disjoint :
    ∀ (items : List (Key × Rect)) (acc : Layout) (g : Grid),
      (∀ pl ∈ (placeItems items acc g).2, pl.viaScan = true) →
      List.Pairwise disjointFoot (placeItems items acc g).2 ∧
        ∀ pl ∈ (placeItems items acc g).2, ∀ c ∈ footprintR pl.r, c ∉ g := by
  intro items
  induction items with
  | nil => intro acc g _; simp [placeItems]
  | cons it rest ih =>
    intro acc g hall
    obtain ⟨k, r0⟩ := it
    cases hf : findPos g r0.w r0.h with
    | some p =>
      obtain ⟨px, py⟩ := p
      simp only [placeItems, hf] at hall ⊢
      have hfree : ∀ c ∈ footprint px py r0.w r0.h, c ∉ g :=
        (canPlace_eq_true_iff.mp (findPos_some hf).2.1).2
      obtain ⟨hpw, hdis⟩ := ih (objInsert acc k ⟨px, py, r0.w, r0.h⟩)
        (footprint px py r0.w r0.h ++ g)
        (fun pl hpl => hall pl (List.mem_cons_of_mem _ hpl))
      constructor
      · refine List.pairwise_cons.mpr ⟨fun pl' hpl' c hc hc' => ?_, hpw⟩
        have := hdis pl' hpl' c hc'
        rw [List.mem_append] at this
        push_neg at this
        exact this.1 hc
      · intro pl hpl c hc
        rcases List.mem_cons.mp hpl with rfl | hpl2
        · exact hfree c hc
        · have := hdis pl hpl2 c hc
          rw [List.mem_append] at this
          push_neg at this
          exact this.2
    | none =>
      exfalso
      have := hall ⟨k, ⟨0, 2 * acc.length, r0.w, r0.h⟩, false⟩ (by
        simp only [placeItems, hf]
        exact List.mem_cons_self _ _)
      simp at this

/-! ### The first-fit specification of each placement -/

/-- Position `q = (row, col)` is acceptable for a `w × h` widget at step `i`
of trace `tr`: its footprint lies inside the 12 columns and avoids both the
ambient occupancy `g` and the footprints of the first `i` placements. -/
def validG (g : Grid) (tr : List Placed) (i w h : Nat) (q : Nat × Nat) : Prop :=
  q.2 + w ≤ GRID_COLS ∧
    ∀ c ∈ footprint q.2 q.1 w h, c ∉ g ∧ ∀ pl ∈ tr.take i, c ∉ footprintR pl.r

theorem validG_zero_iff_canPlace {g : Grid} {tr : List Placed} {w h : Nat}
    {q : Nat × Nat} : validG g tr 0 w h q ↔ canPlace g q.2 q.1 w h = true := by
  rw [canPlace_eq_true_iff]
  unfold validG
  simp

theorem validG_cons {g : Grid} {pl₀ : Placed} {tr' : List Placed} {i w h : Nat}
    {q : Nat × Nat} :
    validG (footprintR pl₀.r ++ g) tr' i w h q ↔
      validG g (pl₀ :: tr') (i + 1) w h q := by
  unfold validG
  constructor
  · rintro ⟨hb, hc⟩
    refine ⟨hb, fun c hcm => ?_⟩
    obtain ⟨hg, htr⟩ := hc c hcm
    rw [List.mem_append] at hg
    push_neg at hg
    rw [List.take_succ_cons]
    refine ⟨hg.2, fun pl hpl => ?_⟩
    rcases List.mem_cons.mp hpl with rfl | hpl2
    · exact hg.1
    · exact htr pl hpl2
  · rintro ⟨hb, hc⟩
    refine ⟨hb, fun c hcm => ?_⟩
    obtain ⟨hg, htr⟩ := hc c hcm
    rw [List.take_succ_cons] at htr
    constructor
    · rw [List.mem_append]
      push_neg
      exact ⟨htr pl₀ (List.mem_cons_self _ _), hg⟩
    · exact fun pl hpl => htr pl (List.mem_cons_of_mem _ hpl)

/-- Full functional specification of the `i`-th trace entry `pl`: a scan
placement sits at the lexicographically least acceptable `(y, x)` with
`y < 100`; a fallback placement happens exactly when no acceptable position
with `y < 100` exists, at column 0 and row twice the number of objects
recorded so far. -/
def placedSpec (g : Grid) (tr : List Placed) (acc0 : Layout) (i : Nat)
    (pl : Placed) : Prop :=
  (pl.viaScan = true →
    pl.r.y < 100 ∧
    validG g tr i pl.r.w pl.r.h (pl.r.y, pl.r.x) ∧
    ∀ q : Nat × Nat, q.1 < 100 →
      (q.1 < pl.r.y ∨ (q.1 = pl.r.y ∧ q.2 < pl.r.x)) →
      ¬ validG g tr i pl.r.w pl.r.h q) ∧
  (pl.viaScan = false →
    (∀ q : Nat × Nat, q.1 < 100 → ¬ validG g tr i pl.r.w pl.r.h q) ∧
    pl.r.x = 0 ∧
    pl.r.y = 2 * ((tr.take i).foldl (fun m p => objInsert m p.k p.r) acc0).length)

theorem placedSpec_cons {g : Grid} {pl₀ : Placed} {tr' : List Placed}
    {acc : Layout} {i : Nat} {pl : Placed}
    (h : placedSpec (footprintR pl₀.r ++ g) tr' (objInsert acc pl₀.k pl₀.r) i pl) :
    placedSpec g (pl₀ :: tr') acc (i + 1) pl := by
  obtain ⟨hs, hfb⟩ := h
  constructor
  · intro hv
    obtain ⟨h1, h2, h3⟩ := hs hv
    exact ⟨h1, validG_cons.mp h2,
      fun q hq100 hq hval => h3 q hq100 hq (validG_cons.mpr hval)⟩
  · intro hv
    obtain ⟨h1, h2, h3⟩ := hfb hv
    refine ⟨fun q hq100 hval => h1 q hq100 (validG_cons.mpr hval), h2, ?_⟩
    rw [List.take_succ_cons, List.foldl_cons]
    exact h3

theorem placeItems_spec :
    ∀ (items : List (Key × Rect)) (acc : Layout) (g : Grid) (i : Nat) (pl : Placed),
      (placeItems items acc g).2[i]? = some pl →
      placedSpec g (placeItems items acc g).2 acc i pl := by
  intro items
  induction items with
  | nil => intro acc g i pl h; simp [placeItems] at h
  | cons it rest ih =>
    intro acc g i pl h
    obtain ⟨k, r0⟩ := it
    cases hf : findPos g r0.w r0.h with
    | some p =>
      obtain ⟨px, py⟩ := p
      have htr : (placeItems ((k, r0) :: rest) acc g).2 =
          ⟨k, ⟨px, py, r0.w, r0.h⟩, true⟩ ::
            (placeItems rest (objInsert acc k ⟨px, py, r0.w, r0.h⟩)
              (footprint px py r0.w r0.h ++ g)).2 := by
        simp [placeItems, hf]
      rw [htr] at h ⊢
      cases i with
      | zero =>
        rw [List.getElem?_cons_zero] at h
        injection h with h
        subst h
        constructor
        · intro _
          obtain ⟨hy, hcp, hmin⟩ := findPos_some hf
          refine ⟨hy, validG_zero_iff_canPlace.mpr hcp, ?_⟩
          intro q hq100 hq hval
          rw [validG_zero_iff_canPlace] at hval
          have hfalse := hmin q.1 q.2 hq100 hq
          rw [hval] at hfalse
          exact absurd hfalse (by simp)
        · intro hv
          simp at hv
      | succ n =>
        rw [List.getElem?_cons_succ] at h
        exact placedSpec_cons (ih _ _ n pl h)
    | none =>
      have htr : (placeItems ((k, r0) :: rest) acc g).2 =
          ⟨k, ⟨0, 2 * acc.length, r0.w, r0.h⟩, false⟩ ::
            (placeItems rest (objInsert acc k ⟨0, 2 * acc.length, r0.w, r0.h⟩)
              (footprint 0 (2 * acc.length) r0.w r0.h ++ g)).2 := by
        simp [placeItems, hf]
      rw [htr] at h ⊢
      cases i with
      | zero =>
        rw [List.getElem?_cons_zero] at h
        injection h with h
        subst h
        constructor
        · intro hv
          simp at hv
        · intro _
          refine ⟨?_, rfl, rfl⟩
          intro q hq100 hval
          rw [validG_zero_iff_canPlace] at hval
          have hfalse := findPos_none hf q.1 q.2 hq100
          rw [hval] at hfalse
          exact absurd hfalse (by simp)
      | succ n =>
        rw [List.getElem?_cons_succ] at h
        exact placedSpec_cons (ih _ _ n pl h)

/-! ### Lemmas towards idempotence -/

/-- Placement depends only on the keys, widths and heights of the items, not
on their incoming positions. -/
theorem placeItems_congr :
    ∀ (items₁ items₂ : List (Key × Rect)) (acc : Layout) (g : Grid),
      List.Forall₂ (fun a b => a.1 = b.1 ∧ a.2.w = b.2.w ∧ a.2.h = b.2.h)
        items₁ items₂ →
      placeItems items₁ acc g = placeItems items₂ acc g := by
  intro items₁
  induction items₁ with
  | nil =>
    intro items₂ acc g h
    cases h
    rfl
  | cons a rest ih =>
    intro items₂ acc g h
    cases h with
    | cons hab htail =>
      rename_i b rest₂
      obtain ⟨k, x1, y1, w1, h1⟩ := a
      obtain ⟨k2, x2, y2, w2, h2⟩ := b
      have hk : k = k2 := hab.1
      have hw : w1 = w2 := hab.2.1
      have hh : h1 = h2 := hab.2.2
      subst hk
      subst hw
      subst hh
      cases hf : findPos g w1 h1 with
      | some p =>
        simp only [placeItems, hf]
        rw [ih rest₂ _ _ htail]
      | none =>
        simp only [placeItems, hf]
        rw [ih rest₂ _ _ htail]

/-- The keys of the trace, in order, are the keys of the items. -/
theorem trace_keys_eq :
    ∀ (items : List (Key × Rect)) (acc : Layout) (g : Grid),
      (placeItems items acc g).2.map Placed.k = items.map Prod.fst := by
  intro items
  induction items with
  | nil => intro acc g; simp [placeItems]
  | cons it rest ih =>
    intro acc g
    obtain ⟨k, r0⟩ := it
    cases hf : findPos g r0.w r0.h with
    | some p => simp only [placeItems, hf, List.map_cons, ih]
    | none => simp only [placeItems, hf, List.map_cons, ih]

/-- With fresh, duplicate-free item keys the result object is the initial
object followed by the trace bindings in placement order. -/
theorem placeItems_acc_eq :
    ∀ (items : List (Key × Rect)) (acc : Layout) (g : Grid),
      (items.map Prod.fst).Nodup →
      (∀ key ∈ items.map Prod.fst, key ∉ acc.map Prod.fst) →
      (placeItems items acc g).1 =
        acc ++ (placeItems items acc g).2.map (fun pl => (pl.k, pl.r)) := by
  intro items
  induction items with
  | nil => intro acc g _ _; simp [placeItems]
  | cons it rest ih =>
    intro acc g hnd hdis
    obtain ⟨k, r0⟩ := it
    rw [List.map_cons, List.nodup_cons] at hnd
    rw [List.map_cons] at hdis
    have hk_acc : k ∉ acc.map Prod.fst := hdis k (List.mem_cons_self _ _)
    cases hf : findPos g r0.w r0.h with
    | some p =>
      obtain ⟨px, py⟩ := p
      simp only [placeItems, hf]
      have hobj : objInsert acc k ⟨px, py, r0.w, r0.h⟩ =
          acc ++ [(k, ⟨px, py, r0.w, r0.h⟩)] := objInsert_of_not_mem _ hk_acc
      have hdis2 : ∀ key ∈ rest.map Prod.fst,
          key ∉ (objInsert acc k ⟨px, py, r0.w, r0.h⟩).map Prod.fst := by
        intro key hkey hmem
        rcases (mem_keys_objInsert _ _ _ _).mp hmem with hm | he
        · exact hdis key (List.mem_cons_of_mem _ hkey) hm
        · exact hnd.1 (he ▸ hkey)
      rw [ih _ _ hnd.2 hdis2, hobj]
      simp
    | none =>
      simp only [placeItems, hf]
      have hobj : objInsert acc k ⟨0, 2 * acc.length, r0.w, r0.h⟩ =
          acc ++ [(k, ⟨0, 2 * acc.length, r0.w, r0.h⟩)] := objInsert_of_not_mem _ hk_acc
      have hdis2 : ∀ key ∈ rest.map Prod.fst,
          key ∉ (objInsert acc k ⟨0, 2 * acc.length, r0.w, r0.h⟩).map Prod.fst := by
        intro key hkey hmem
        rcases (mem_keys_objInsert _ _ _ _).mp hmem with hm | he
        · exact hdis key (List.mem_cons_of_mem _ hkey) hm
        · exact hnd.1 (he ▸ hkey)
      rw [ih _ _ hnd.2 hdis2, hobj]
      simp

theorem lookup_isSome_of_mem_keys :
    ∀ {m : Layout} {k : Key}, k ∈ m.map Prod.fst → (lookup m k).isSome = true := by
  intro m
  induction m with
  | nil => intro k h; simp at h
  | cons b bs ih =>
    intro k h
    obtain ⟨k', r'⟩ := b
    rw [List.map_cons, List.mem_cons] at h
    by_cases h1 : k' = k
    · simp [lookup, h1]
    · rcases h with he | hm
      · exact absurd he.symm h1
      · simp [lookup, h1, ih hm]

theorem lookup_eq_none_of_not_mem {m : Layout} {k : Key}
    (h : k ∉ m.map Prod.fst) : lookup m k = none := by
  induction m with
  | nil => rfl
  | cons b bs ih =>
    obtain ⟨k', r'⟩ := b
    rw [List.map_cons, List.mem_cons] at h
    push_neg at h
    have h1 : ¬ (k' = k) := fun he => h.1 he.symm
    simp [lookup, h1, ih h.2]

/-- Removal of the first binding of a key. -/
def removeBinding : Layout → Key → Layout
  | [], _ => []
  | (k', r') :: m, k => if k' = k then m else (k', r') :: removeBinding m k

theorem lookup_removeBinding_ne :
    ∀ {m : Layout} {v k : Key}, ¬ (k = v) →
      lookup (removeBinding m v) k = lookup m k := by
  intro m
  induction m with
  | nil => intro v k _; rfl
  | cons b bs ih =>
    intro v k hne
    obtain ⟨k', r'⟩ := b
    by_cases h1 : k' = v
    · subst h1
      have h2 : ¬ (k' = k) := fun he => hne he.symm
      simp [removeBinding, lookup, h2]
    · simp only [removeBinding, if_neg h1]
      by_cases h2 : k' = k
      · simp [lookup, h2]
      · simp [lookup, h2, ih hne]

theorem keys_removeBinding_subset {m : Layout} {v key : Key}
    (h : key ∈ (removeBinding m v).map Prod.fst) : key ∈ m.map Prod.fst := by
  induction m with
  | nil => simp [removeBinding] at h
  | cons b bs ih =>
    obtain ⟨k', r'⟩ := b
    by_cases h1 : k' = v
    · rw [show removeBinding ((k', r') :: bs) v = bs by simp [removeBinding, h1]] at h
      exact List.mem_cons_of_mem _ h
    · rw [show removeBinding ((k', r') :: bs) v = (k', r') :: removeBinding bs v by
        simp [removeBinding, h1]] at h
      rw [List.map_cons, List.mem_cons] at h ⊢
      rcases h with h | h
      · exact Or.inl h
      · exact Or.inr (ih h)

theorem not_mem_keys_removeBinding {m : Layout} {v : Key}
    (h : (m.map Prod.fst).Nodup) : v ∉ (removeBinding m v).map Prod.fst := by
  induction m with
  | nil => simp [removeBinding]
  | cons b bs ih =>
    obtain ⟨k', r'⟩ := b
    rw [List.map_cons, List.nodup_cons] at h
    by_cases h1 : k' = v
    · subst h1
      rw [show removeBinding ((k', r') :: bs) k' = bs by simp [removeBinding]]
      intro hc
      exact h.1 hc
    · rw [show removeBinding ((k', r') :: bs) v = (k', r') :: removeBinding bs v by
        simp [removeBinding, h1]]
      rw [List.map_cons, List.mem_cons]
      push_neg
      exact ⟨fun he => h1 he.symm, ih h.2⟩

theorem nodup_keys_removeBinding {m : Layout} {v : Key}
    (h : (m.map Prod.fst).Nodup) : ((removeBinding m v).map Prod.fst).Nodup := by
  induction m with
  | nil => simp [removeBinding]
  | cons b bs ih =>
    obtain ⟨k', r'⟩ := b
    rw [List.map_cons, List.nodup_cons] at h
    by_cases h1 : k' = v
    · rw [show removeBinding ((k', r') :: bs) v = bs by simp [removeBinding, h1]]
      exact h.2
    · rw [show removeBinding ((k', r') :: bs) v = (k', r') :: removeBinding bs v by
        simp [removeBinding, h1]]
      rw [List.map_cons, List.nodup_cons]
      exact ⟨fun hc => h.1 (keys_removeBinding_subset hc), ih h.2⟩

theorem perm_removeBinding :
    ∀ {m : Layout} {v : Key} {rv : Rect}, lookup m v = some rv →
      m.Perm ((v, rv) :: removeBinding m v) := by
  intro m
  induction m with
  | nil => intro v rv h; simp [lookup] at h
  | cons b bs ih =>
    intro v rv h
    obtain ⟨k', r'⟩ := b
    by_cases h1 : k' = v
    · subst h1
      rw [show lookup ((k', r') :: bs) k' = some r' from by simp [lookup]] at h
      have h2 : r' = rv := by injection h
      subst h2
      rw [show removeBinding ((k', r') :: bs) k' = bs from by simp [removeBinding]]
    · rw [show lookup ((k', r') :: bs) v = lookup bs v from by simp [lookup, h1]] at h
      rw [show removeBinding ((k', r') :: bs) v = (k', r') :: removeBinding bs v from by
        simp [removeBinding, h1]]
      exact ((ih h).cons (k', r')).trans (List.Perm.swap (v, rv) (k', r') _)

theorem itemsOf_congr {m₁ m₂ : Layout} :
    ∀ {V : List Key}, (∀ k ∈ V, lookup m₁ k = lookup m₂ k) →
      itemsOf m₁ V = itemsOf m₂ V := by
  intro V
  induction V with
  | nil => intro _; rfl
  | cons v V ih =>
    intro h
    have hu : ∀ (m : Layout), itemsOf m (v :: V) =
        ((lookup m v).map (fun r => (v, r))).toList ++ itemsOf m V := by
      intro m
      simp [itemsOf, List.filterMap_cons]
      cases lookup m v <;> simp
    rw [hu m₁, hu m₂, h v (List.mem_cons_self _ _),
      ih (fun k hk => h k (List.mem_cons_of_mem _ hk))]

/-- Filtering an object with duplicate-free keys through a duplicate-free
visible list containing all its keys permutes the object. -/
theorem itemsOf_perm_self :
    ∀ {V : List Key} {m : Layout}, V.Nodup → (m.map Prod.fst).Nodup →
      (∀ key ∈ m.map Prod.fst, key ∈ V) → (itemsOf m V).Perm m := by
  intro V
  induction V with
  | nil =>
    intro m _ _ hsub
    have hm : m = [] := by
      cases m with
      | nil => rfl
      | cons b bs =>
        exact absurd (hsub b.1 (by rw [List.map_cons]; exact List.mem_cons_self _ _))
          (by simp)
    subst hm
    simp [itemsOf]
  | cons v V ih =>
    intro m hV hmk hsub
    rw [List.nodup_cons] at hV
    cases hl : lookup m v with
    | none =>
      have hu : itemsOf m (v :: V) = itemsOf m V := by
        simp [itemsOf, List.filterMap_cons, hl]
      rw [hu]
      refine ih hV.2 hmk ?_
      intro key hkey
      rcases List.mem_cons.mp (hsub key hkey) with he | hm
      · subst he
        have hs := lookup_isSome_of_mem_keys hkey
        rw [hl] at hs
        exact absurd hs (by simp)
      · exact hm
    | some rv =>
      have hu : itemsOf m (v :: V) = (v, rv) :: itemsOf m V := by
        simp [itemsOf, List.filterMap_cons, hl]
      have hit : itemsOf m V = itemsOf (removeBinding m v) V :=
        itemsOf_congr (fun k hk =>
          (lookup_removeBinding_ne (fun he => hV.1 (by rw [← he]; exact hk))).symm)
      rw [hu, hit]
      refine List.Perm.trans ?_ (perm_removeBinding hl).symm
      refine List.Perm.cons _ (ih hV.2 (nodup_keys_removeBinding hmk) ?_)
      intro key hkey
      have hne : ¬ (key = v) := by
        intro he
        subst he
        exact not_mem_keys_removeBinding hmk hkey
      rcases List.mem_cons.mp (hsub key (keys_removeBinding_subset hkey)) with he | hm
      · exact absurd he hne
      · exact hm

/-- Entry of a trace element as an object binding. -/
def entry (pl : Placed) : Key × Rect := (pl.k, pl.r)

theorem keyLt_trans {a b c : Key × Rect} (h1 : keyLt a b = true)
    (h2 : keyLt b c = true) : keyLt a c = true := by
  rw [keyLt_iff] at h1 h2 ⊢
  omega

/-- The positions assigned along the trace are strictly increasing in the
lexicographic `(y, x)` order. -/
def strictlyIncreasingB : List Placed → Bool
  | a :: b :: t => keyLt (entry a) (entry b) && strictlyIncreasingB (b :: t)
  | _ => true

theorem pairwise_of_strictlyIncreasing :
    ∀ {l : List Placed}, strictlyIncreasingB l = true →
      List.Pairwise (fun a b => keyLt (entry a) (entry b) = true) l := by
  intro l
  induction l with
  | nil => intro _; exact .nil
  | cons a t ih =>
    intro h
    cases t with
    | nil => exact .cons (by simp) .nil
    | cons b t2 =>
      rw [show strictlyIncreasingB (a :: b :: t2) =
          (keyLt (entry a) (entry b) && strictlyIncreasingB (b :: t2)) from rfl,
        Bool.and_eq_true] at h
      have hpw := ih h.2
      refine .cons (fun c hc => ?_) hpw
      rcases List.mem_cons.mp hc with rfl | hc2
      · exact h.1
      · exact keyLt_trans h.1 ((List.pairwise_cons.mp hpw).1 c hc2)

/-! ### Characterization of the next-position finder -/

theorem mem_foldl_grid :
    ∀ (L : Layout) (g0 : Grid) (c : Cell),
      c ∈ L.foldl (fun g kr => clampedFootprint kr.2 ++ g) g0 ↔
        c ∈ g0 ∨ ∃ kr ∈ L, c ∈ clampedFootprint kr.2 := by
  intro L
  induction L with
  | nil => intro g0 c; simp
  | cons b bs ih =>
    intro g0 c
    rw [List.foldl_cons, ih]
    simp only [List.mem_append, List.mem_cons]
    constructor
    · rintro (⟨h | h⟩ | ⟨kr, hm, hc⟩)
      · exact Or.inr ⟨b, Or.inl rfl, h⟩
      · exact Or.inl h
      · exact Or.inr ⟨kr, Or.inr hm, hc⟩
    · rintro (h | ⟨kr, hm | hm, hc⟩)
      · exact Or.inl (Or.inr h)
      · exact Or.inl (Or.inl (hm ▸ hc))
      · exact Or.inr ⟨kr, hm, hc⟩

theorem mem_buildGrid {L : Layout} {c : Cell} :
    c ∈ buildGrid L ↔ ∃ kr ∈ L, c ∈ clampedFootprint kr.2 := by
  rw [buildGrid, mem_foldl_grid]
  simp

theorem mem_clampedFootprint {r : Rect} {c : Cell} :
    c ∈ clampedFootprint r ↔
      r.y ≤ c.1 ∧ c.1 < r.y + r.h ∧ r.x ≤ c.2 ∧ c.2 < min (r.x + r.w) GRID_COLS := by
  obtain ⟨cy, cx⟩ := c
  simp only [clampedFootprint, List.mem_flatMap, List.mem_map, List.mem_range]
  constructor
  · rintro ⟨dy, hdy, dx, hdx, heq⟩
    have h1 : r.y + dy = cy := congrArg Prod.fst heq
    have h2 : r.x + dx = cx := congrArg Prod.snd heq
    omega
  · rintro ⟨h1, h2, h3, h4⟩
    refine ⟨cy - r.y, by omega, cx - r.x, by omega, ?_⟩
    rw [Nat.add_sub_cancel' h1, Nat.add_sub_cancel' h3]

theorem fitsAt_eq_true_iff {g : Grid} {w h x y : Nat} :
    fitsAt g w h x y = true ↔ ∀ c ∈ footprint x y w h, c ∉ g := by
  unfold fitsAt
  rw [List.all_eq_true]
  constructor
  · intro hall c hc
    have hx := hall c hc
    rw [Bool.not_eq_eq_eq_not, Bool.not_true, occupiedB_eq_false_iff] at hx
    exact hx
  · intro hfree c hc
    rw [Bool.not_eq_eq_eq_not, Bool.not_true, occupiedB_eq_false_iff]
    exact hfree c hc

/-- The claim-level notion for the slot finder: `(x, y)` fits the requested
`w × h` footprint within the 12 columns against the occupancy derived from
the layout. -/
def slotFits (L : Layout) (w h x y : Nat) : Prop :=
  x + w ≤ GRID_COLS ∧ ∀ c ∈ footprint x y w h, c ∉ buildGrid L

/-- Full characterization of `findNextGridPosition`: either the scan finds
the lexicographically least fitting `(y, x)` with `y < 100`, or nothing fits
within the bound and the fallback `(0, 2 · #entries)` is returned. -/
theorem findNextGridPosition_characterization (L : Layout) (w h : Nat) :
    (slotFits L w h (findNextGridPosition L w h).1 (findNextGridPosition L w h).2 ∧
      (findNextGridPosition L w h).2 < 100 ∧
      ∀ y x, y < 100 →
        (y < (findNextGridPosition L w h).2 ∨
          (y = (findNextGridPosition L w h).2 ∧ x < (findNextGridPosition L w h).1)) →
        ¬ slotFits L w h x y) ∨
    ((∀ y x, y < 100 → ¬ slotFits L w h x y) ∧
      findNextGridPosition L w h = (0, 2 * L.length)) := by
  have hwide : ∀ y x, GRID_COLS + 1 - w ≤ x → ¬ slotFits L w h x y := by
    intro y x hx hs
    have := hs.1
    omega
  have hrange : ∀ y x, x < GRID_COLS + 1 - w →
      (slotFits L w h x y ↔ fitsAt (buildGrid L) w h x y = true) := by
    intro y x hx
    rw [fitsAt_eq_true_iff]
    unfold slotFits
    constructor
    · exact fun hs => hs.2
    · exact fun hf => ⟨by omega, hf⟩
  cases hs : scanFirstSome
      (fun y => (scanFirst (fun x => fitsAt (buildGrid L) w h x y) 0 (GRID_COLS + 1 - w)).map
        (fun x => (x, y)))
      0 100 with
  | some p =>
    obtain ⟨px, py⟩ := p
    have hres : findNextGridPosition L w h = (px, py) := by
      unfold findNextGridPosition
      rw [hs]
    rw [hres]
    dsimp only
    left
    obtain ⟨y₀, _, hy₀lt, hfy, hnone⟩ := scanFirstSome_eq_some hs
    have hfy2 : (scanFirst (fun x => fitsAt (buildGrid L) w h x y₀) 0
        (GRID_COLS + 1 - w)).map (fun x => (x, y₀)) = some (px, py) := hfy
    cases hsf : scanFirst (fun x => fitsAt (buildGrid L) w h x y₀) 0 (GRID_COLS + 1 - w) with
    | none => rw [hsf] at hfy2; simp at hfy2
    | some x₀ =>
      rw [hsf] at hfy2
      simp only [Option.map_some'] at hfy2
      injection hfy2 with hfy2
      have hx₀ : x₀ = px := congrArg Prod.fst hfy2
      have hy₀ : y₀ = py := congrArg Prod.snd hfy2
      subst hx₀
      subst hy₀
      obtain ⟨_, hxlt, hpx, hxmin⟩ := scanFirst_eq_some hsf
      refine ⟨(hrange y₀ x₀ (by omega)).mpr hpx, by omega, ?_⟩
      intro y x hy100 hlt
      rcases hlt with hlt | ⟨rfl, hxlt2⟩
      · have hn : (scanFirst (fun x => fitsAt (buildGrid L) w h x y) 0
            (GRID_COLS + 1 - w)).map (fun x => (x, y)) = none :=
          hnone y (Nat.zero_le _) (by omega)
        cases hsf2 : scanFirst (fun x => fitsAt (buildGrid L) w h x y) 0
            (GRID_COLS + 1 - w) with
        | some x₁ => rw [hsf2] at hn; simp at hn
        | none =>
          by_cases hx : x < GRID_COLS + 1 - w
          · intro hsl
            have := scanFirst_eq_none hsf2 x (Nat.zero_le _) (by omega)
            rw [(hrange y x hx).mp hsl] at this
            exact absurd this (by simp)
          · exact hwide y x (by omega)
      · intro hsl
        have := hxmin x (Nat.zero_le _) hxlt2
        rw [(hrange y x (by omega)).mp hsl] at this
        exact absurd this (by simp)
  | none =>
    have hres : findNextGridPosition L w h = (0, 2 * L.length) := by
      unfold findNextGridPosition
      rw [hs]
    right
    refine ⟨?_, hres⟩
    intro y x hy100
    have hn : (scanFirst (fun x => fitsAt (buildGrid L) w h x y) 0
        (GRID_COLS + 1 - w)).map (fun x => (x, y)) = none :=
      scanFirstSome_eq_none hs y (Nat.zero_le _) (by omega)
    cases hsf : scanFirst (fun x => fitsAt (buildGrid L) w h x y) 0 (GRID_COLS + 1 - w) with
    | some x₁ => rw [hsf] at hn; simp at hn
    | none =>
      by_cases hx : x < GRID_COLS + 1 - w
      · intro hsl
        have := scanFirst_eq_none hsf x (Nat.zero_le _) (by omega)
        rw [(hrange y x hx).mp hsl] at this
        exact absurd this (by simp)
      · exact hwide y x (by omega)

/-- On the empty layout the slot finder always answers the origin. -/
theorem findNextGridPosition_nil (w h : Nat) : findNextGridPosition [] w h = (0, 0) := by
  rcases findNextGridPosition_characterization [] w h with ⟨hfit, _, hmin⟩ | ⟨_, heq⟩
  · by_cases hw : w ≤ GRID_COLS
    · have hfit0 : slotFits [] w h 0 0 := by
        refine ⟨by omega, fun c _ hc => ?_⟩
        rw [mem_buildGrid] at hc
        obtain ⟨kr, hm, _⟩ := hc
        simp at hm
      by_cases hzero : (findNextGridPosition [] w h).2 = 0 ∧
          (findNextGridPosition [] w h).1 = 0
      · exact Prod.ext_iff.mpr ⟨hzero.2, hzero.1⟩
      · have hlex : 0 < (findNextGridPosition [] w h).2 ∨
            (0 = (findNextGridPosition [] w h).2 ∧
              0 < (findNextGridPosition [] w h).1) := by omega
        exact absurd hfit0 (hmin 0 0 (by omega) hlex)
    · have := hfit.1
      omega
  · simpa using heq

/-! ### The layout loader against its specification -/

/-- The loader as the spec describes it: an object already stored is the
layout; a string is parsed and used only when parsing yields a (non-null)
object; every other case is the empty layout. -/
def loaderSpec (parse : String → Option JSVal) (v : Option JSVal) : Layout :=
  match v with
  | some (.jobj m) => m
  | some (.jstr s) =>
    match parse s with
    | some (.jobj m) => m
    | _ => []
  | _ => []

theorem parseWidgetLayouts_eq_loaderSpec (parse : String → Option JSVal)
    (hparse : parse "" = none) (v : Option JSVal) :
    parseWidgetLayouts parse v = loaderSpec parse v := by
  cases v with
  | none => rfl
  | some val =>
    cases val with
    | jnull => rfl
    | jbool b => cases b <;> rfl
    | jnum n =>
      by_cases hn : n = 0
      · subst hn
        simp [parseWidgetLayouts, loaderSpec, isTruthy]
      · simp [parseWidgetLayouts, loaderSpec, isTruthy, hn]
    | jstr s =>
      by_cases hs : s = ""
      · subst hs
        simp [parseWidgetLayouts, loaderSpec, isTruthy, hparse]
      · simp [parseWidgetLayouts, loaderSpec, isTruthy, hs]
    | jobj m => rfl

/-! ### Claim-level notions for the compactor -/

/-- The no-overlap property of the compactor output: distinct widgets get
disjoint footprints. -/
def noOverlapClaim (L : Layout) (V : List Key) : Prop :=
  ∀ k₁ r₁ k₂ r₂, lookup (compactLayoutsUtil L V) k₁ = some r₁ →
    lookup (compactLayoutsUtil L V) k₂ = some r₂ → ¬ (k₁ = k₂) →
    ∀ c ∈ footprintR r₁, c ∉ footprintR r₂

/-- The first-fit property exactly as claimed: every processed widget sits at
the lexicographically least `(y, x)` whose footprint stays inside the columns
and misses the footprints of the widgets placed before it. -/
def firstFitClaim (L : Layout) (V : List Key) : Prop :=
  ∀ i pl, (compactTrace L V)[i]? = some pl →
    validG [] (compactTrace L V) i pl.r.w pl.r.h (pl.r.y, pl.r.x) ∧
    ∀ q : Nat × Nat, (q.1 < pl.r.y ∨ (q.1 = pl.r.y ∧ q.2 < pl.r.x)) →
      ¬ validG [] (compactTrace L V) i pl.r.w pl.r.h q

/-- Every widget of the compaction was placed by the bounded scan. -/
def noFallback (L : Layout) (V : List Key) : Bool :=
  (compactTrace L V).all (fun pl => pl.viaScan)

/-- Extensional equality of layout objects. -/
def layoutEquiv (m₁ m₂ : Layout) : Prop := ∀ k, lookup m₁ k = lookup m₂ k

theorem compact_no_overlap_of_noFallback {L : Layout} {V : List Key}
    (h : noFallback L V = true) : noOverlapClaim L V := by
  intro k₁ r₁ k₂ r₂ h₁ h₂ hne c hc₁ hc₂
  have hall : ∀ pl ∈ compactTrace L V, pl.viaScan = true := by
    rw [noFallback, List.all_eq_true] at h
    exact h
  obtain ⟨hpw, _⟩ := placeItems_disjoint (sortItems (itemsOf L V)) [] [] hall
  rcases placeItems_lookup _ _ _ _ _ h₁ with ⟨pl₁, hm₁, hk₁, hr₁⟩ | habs
  · rcases placeItems_lookup _ _ _ _ _ h₂ with ⟨pl₂, hm₂, hk₂, hr₂⟩ | habs
    · have hsym : Symmetric disjointFoot := by
        intro a b hab c2 hcb hca
        exact (hab c2 hca) hcb
      have hne_pl : pl₁ ≠ pl₂ := by
        intro he
        apply hne
        rw [← hk₁, ← hk₂, he]
      subst hr₁
      subst hr₂
      exact (hpw.forall hsym hm₁ hm₂ hne_pl) c hc₁ hc₂
    · simp [lookup] at habs
  · simp [lookup] at habs

theorem compact_keys (L : Layout) (V : List Key) :
    ((compactLayoutsUtil L V).map Prod.fst).Nodup ∧
    ∀ k, k ∈ (compactLayoutsUtil L V).map Prod.fst ↔
      k ∈ V ∧ (lookup L k).isSome = true := by
  constructor
  · exact nodup_keys_placeItems _ _ _ (by simp)
  · intro k
    rw [show compactLayoutsUtil L V = (placeItems (sortItems (itemsOf L V)) [] []).1
      from rfl, mem_keys_placeItems]
    have hp : ((sortItems (itemsOf L V)).map Prod.fst).Perm
        ((itemsOf L V).map Prod.fst) := (sortItems_perm _).map _
    constructor
    · rintro (h | h)
      · simp at h
      · rw [hp.mem_iff, keys_itemsOf, List.mem_filter] at h
        exact ⟨h.1, h.2⟩
    · rintro ⟨hv, hs⟩
      right
      rw [hp.mem_iff, keys_itemsOf, List.mem_filter]
      exact ⟨hv, hs⟩

theorem compact_containment {L : Layout} {V : List Key}
    (hpre : ∀ kr ∈ L, 1 ≤ kr.2.w ∧ 1 ≤ kr.2.h ∧ kr.2.x + kr.2.w ≤ GRID_COLS) :
    ∀ kr ∈ compactLayoutsUtil L V, kr.2.x + kr.2.w ≤ GRID_COLS := by
  apply placeItems_bounds _ _ _ ?_ (by simp)
  intro it hit
  have hmem : it ∈ itemsOf L V := (sortItems_perm _).subset hit
  obtain ⟨k, r⟩ := it
  have hl := (mem_itemsOf.mp hmem).2
  have hm := lookup_eq_some_mem hl
  have := hpre (k, r) hm
  omega

theorem forall2_mem_right {α β : Type} {R : α → β → Prop} :
    ∀ {l₁ : List α} {l₂ : List β}, List.Forall₂ R l₁ l₂ → ∀ {b}, b ∈ l₂ →
      ∃ a ∈ l₁, R a b := by
  intro l₁ l₂ h
  induction h with
  | nil => intro b hb; simp at hb
  | cons hR htail ih =>
    intro b hb
    rcases List.mem_cons.mp hb with rfl | hb2
    · exact ⟨_, List.mem_cons_self _ _, hR⟩
    · obtain ⟨a, ha, hr⟩ := ih hb2
      exact ⟨a, List.mem_cons_of_mem _ ha, hr⟩

theorem compact_preserves_size {L : Layout} {V : List Key} {k : Key} {r : Rect}
    (h : lookup (compactLayoutsUtil L V) k = some r) :
    ∃ r₀, lookup L k = some r₀ ∧ r.w = r₀.w ∧ r.h = r₀.h := by
  rcases placeItems_lookup _ _ _ _ _ h with ⟨pl, hm, hk, hr⟩ | habs
  · obtain ⟨it, hit, hR⟩ :=
      forall2_mem_right (placeItems_forall2 (sortItems (itemsOf L V)) [] []) hm
    obtain ⟨ki, ri⟩ := it
    have hmem : (ki, ri) ∈ itemsOf L V := (sortItems_perm _).subset hit
    obtain ⟨_, hlook⟩ := mem_itemsOf.mp hmem
    refine ⟨ri, ?_, ?_, ?_⟩
    · rw [← hk, hR.1]
      exact hlook
    · rw [← hr]
      exact hR.2.1
    · rw [← hr]
      exact hR.2.2
  · simp [lookup] at habs

/-- Idempotence of the compactor, provided the first run assigns strictly
increasing positions along the processing order. -/
theorem compact_idempotent_of_increasing {L : Layout} {V : List Key}
    (hV : V.Nodup)
    (hinc : strictlyIncreasingB (compactTrace L V) = true) :
    compactLayoutsUtil (compactLayoutsUtil L V) V = compactLayoutsUtil L V := by
  have hkeys_items : ((itemsOf L V).map Prod.fst).Nodup := nodup_keys_itemsOf hV
  have hperm_keys : ((sortItems (itemsOf L V)).map Prod.fst).Perm
      ((itemsOf L V).map Prod.fst) := (sortItems_perm _).map _
  have hnd_sorted : ((sortItems (itemsOf L V)).map Prod.fst).Nodup :=
    hperm_keys.nodup_iff.mpr hkeys_items
  have hout : compactLayoutsUtil L V =
      (compactTrace L V).map (fun pl => (pl.k, pl.r)) := by
    have hx := placeItems_acc_eq (sortItems (itemsOf L V)) [] [] hnd_sorted (by simp)
    simpa using hx
  have htrace_keys : (compactTrace L V).map Placed.k =
      (sortItems (itemsOf L V)).map Prod.fst := trace_keys_eq _ _ _
  have hout_keys : (compactLayoutsUtil L V).map Prod.fst =
      (compactTrace L V).map Placed.k := by
    rw [hout, List.map_map]
    rfl
  have hnd_out : ((compactLayoutsUtil L V).map Prod.fst).Nodup := by
    rw [hout_keys, htrace_keys]
    exact hnd_sorted
  have hsub_out : ∀ key ∈ (compactLayoutsUtil L V).map Prod.fst, key ∈ V := by
    intro key hk
    rw [hout_keys, htrace_keys, hperm_keys.mem_iff, keys_itemsOf,
      List.mem_filter] at hk
    exact hk.1
  have hperm2 : (itemsOf (compactLayoutsUtil L V) V).Perm
      ((compactTrace L V).map (fun pl => (pl.k, pl.r))) := by
    rw [← hout]
    exact itemsOf_perm_self hV hnd_out hsub_out
  have hpw_lt : List.Pairwise (fun a b => keyLt a b = true)
      ((compactTrace L V).map (fun pl => (pl.k, pl.r))) := by
    rw [List.pairwise_map]
    exact pairwise_of_strictlyIncreasing hinc
  have hsorted_eq : sortItems (itemsOf (compactLayoutsUtil L V) V) =
      (compactTrace L V).map (fun pl => (pl.k, pl.r)) :=
    sorted_perm_eq ((sortItems_perm _).trans hperm2) (sortItems_pairwise _) hpw_lt
  have hf2run : List.Forall₂ (fun a b => a.1 = b.1 ∧ a.2.w = b.2.w ∧ a.2.h = b.2.h)
      ((compactTrace L V).map (fun pl => (pl.k, pl.r))) (sortItems (itemsOf L V)) := by
    have hfa := placeItems_forall2 (sortItems (itemsOf L V)) [] []
    rw [List.forall₂_map_left_iff]
    have hflip := hfa.flip
    apply List.Forall₂.imp ?_ hflip
    intro pl it hR
    exact ⟨hR.1, hR.2.1, hR.2.2⟩
  calc compactLayoutsUtil (compactLayoutsUtil L V) V
      = (placeItems (sortItems (itemsOf (compactLayoutsUtil L V) V)) [] []).1 := rfl
    _ = (placeItems ((compactTrace L V).map (fun pl => (pl.k, pl.r))) [] []).1 := by
        rw [hsorted_eq]
    _ = (placeItems (sortItems (itemsOf L V)) [] []).1 := by
        rw [placeItems_congr _ _ [] [] hf2run]
    _ = compactLayoutsUtil L V := rfl

/-! ### Concrete inputs used by the claims -/

/-- The spec's worked example: `{A:{x:0,y:0,w:3,h:2}, B:{x:5,y:3,w:3,h:2}}`. -/
def exLayout : Layout := [("A", ⟨0, 0, 3, 2⟩), ("B", ⟨5, 3, 3, 2⟩)]

def exVisible : List Key := ["A", "B"]

/-- A full-height column blocking all 100 scan rows; the 12-wide widget B can
only be placed by the fallback, which lands inside A's footprint. -/
def tallLayout : Layout := [("A", ⟨0, 0, 1, 100⟩), ("B", ⟨0, 1, 12, 1⟩)]

def tallVisible : List Key := ["A", "B"]

/-- Three widgets whose first compaction is not position-sorted: C lands at
`(x 11, y 0)` after B at `(x 0, y 1)`, so recompaction processes C before B
and moves it. -/
def idemLayout : Layout :=
  [("A", ⟨0, 0, 2, 1⟩), ("B", ⟨0, 1, 11, 1⟩), ("C", ⟨0, 2, 1, 2⟩)]

def idemVisible : List Key := ["A", "B", "C"]

/-- A parser that fails on every string, as `JSON.parse` does on `""`. -/
def parseNone : String → Option JSVal := fun _ => none

/-! ### The claims -/

/-- C1 counterexample: on the layout `tallLayout` (every placement satisfies
the data-model invariant) widget B cannot be placed within the 100-row bound,
falls back to `(x 0, y 2)` and overlaps A's footprint at cell `(2, 0)` — so
the unconditional no-overlap claim is false. -/
theorem c1_counterexample : ¬ noOverlapClaim tallLayout tallVisible := by
  intro h
  have hA : lookup (compactLayoutsUtil tallLayout tallVisible) "A" =
      some ⟨0, 0, 1, 100⟩ := by decide
  have hB : lookup (compactLayoutsUtil tallLayout tallVisible) "B" =
      some ⟨0, 2, 12, 1⟩ := by decide
  exact h "A" _ "B" _ hA hB (by decide) (2, 0) (by decide) (by decide)

/-- C1 (amended): whenever every widget is placed by the bounded first-fit
scan (no fallback placement occurs), the output layout of `compactLayoutsUtil`
contains no two distinct widgets whose footprints intersect. -/
theorem c1_no_overlap_of_no_fallback (L : Layout) (V : List Key)
    (h : noFallback L V = true) : noOverlapClaim L V :=
  compact_no_overlap_of_noFallback h

theorem c1_no_overlap_witness :
    noFallback exLayout exVisible = true ∧ noOverlapClaim exLayout exVisible :=
  ⟨by decide, c1_no_overlap_of_no_fallback exLayout exVisible (by decide)⟩

/-- C2 counterexample: on `tallLayout`, widget B's assigned position `(2, 0)`
is not even acceptable — its footprint meets A's — so it is not the
lexicographically least acceptable position the claim promises. -/
theorem c2_counterexample : ¬ firstFitClaim tallLayout tallVisible := by
  intro h
  have htr : (compactTrace tallLayout tallVisible)[1]? =
      some ⟨"B", ⟨0, 2, 12, 1⟩, false⟩ := by decide
  obtain ⟨hv, _⟩ := h 1 _ htr
  obtain ⟨_, hfree⟩ := hv
  obtain ⟨_, htake⟩ := hfree (2, 0) (by decide)
  have hmem : (⟨"A", ⟨0, 0, 1, 100⟩, true⟩ : Placed) ∈
      (compactTrace tallLayout tallVisible).take 1 := by decide
  exact htake _ hmem (by decide)

/-- C2 (amended): every widget placed by the bounded scan is assigned the
lexicographically least `(y, x)` with `y < 100` at which its full footprint
lies within the 12 columns and does not intersect the footprints of the
widgets placed before it; a widget takes the fallback exactly when no such
position exists, and then sits at column 0, row twice the number of widgets
recorded so far. -/
theorem c2_first_fit_bounded (L : Layout) (V : List Key) (i : Nat) (pl : Placed)
    (h : (compactTrace L V)[i]? = some pl) :
    (pl.viaScan = true →
      pl.r.y < 100 ∧
      validG [] (compactTrace L V) i pl.r.w pl.r.h (pl.r.y, pl.r.x) ∧
      ∀ q : Nat × Nat, q.1 < 100 →
        (q.1 < pl.r.y ∨ (q.1 = pl.r.y ∧ q.2 < pl.r.x)) →
        ¬ validG [] (compactTrace L V) i pl.r.w pl.r.h q) ∧
    (pl.viaScan = false →
      (∀ q : Nat × Nat, q.1 < 100 →
        ¬ validG [] (compactTrace L V) i pl.r.w pl.r.h q) ∧
      pl.r.x = 0 ∧
      pl.r.y = 2 * (((compactTrace L V).take i).foldl
        (fun m p => objInsert m p.k p.r) ([] : Layout)).length) :=
  placeItems_spec (sortItems (itemsOf L V)) [] [] i pl h

theorem c2_first_fit_witness :
    (compactTrace exLayout exVisible)[0]? = some ⟨"A", ⟨0, 0, 3, 2⟩, true⟩ ∧
    validG [] (compactTrace exLayout exVisible) 0 3 2 (0, 0) := by
  refine ⟨by decide, ?_⟩
  have h := (c2_first_fit_bounded exLayout exVisible 0
    ⟨"A", ⟨0, 0, 3, 2⟩, true⟩ (by decide)).1 rfl
  exact h.2.1

/-- C3 counterexample: compacting `idemLayout` once places C at `(x 11, y 0)`,
after B at `(x 0, y 1)` in processing order; recompacting the output sorts C
before B and moves C to `(x 2, y 0)`, so compaction is not idempotent. -/
theorem c3_counterexample :
    ¬ layoutEquiv
      (compactLayoutsUtil (compactLayoutsUtil idemLayout idemVisible) idemVisible)
      (compactLayoutsUtil idemLayout idemVisible) :=
  fun h => absurd (h "C") (by decide)

/-- C3 (amended): for a duplicate-free visible sequence, if the positions the
first compaction assigns are strictly increasing in the lexicographic `(y, x)`
order along the processing order, then compacting the result again returns it
unchanged. -/
theorem c3_idempotent_of_increasing (L : Layout) (V : List Key)
    (hV : V.Nodup)
    (hinc : strictlyIncreasingB (compactTrace L V) = true) :
    compactLayoutsUtil (compactLayoutsUtil L V) V = compactLayoutsUtil L V :=
  compact_idempotent_of_increasing hV hinc

theorem c3_idempotent_witness :
    (exVisible.Nodup ∧ strictlyIncreasingB (compactTrace exLayout exVisible) = true) ∧
    compactLayoutsUtil (compactLayoutsUtil exLayout exVisible) exVisible =
      compactLayoutsUtil exLayout exVisible :=
  ⟨⟨by decide, by decide⟩,
    c3_idempotent_of_increasing exLayout exVisible (by decide) (by decide)⟩

/-- C4: the output keys of `compactLayoutsUtil` are duplicate-free and a key
appears in the output exactly when it occurs in the visible sequence and has
a placement in the input layout. -/
theorem c4_domain (L : Layout) (V : List Key) :
    ((compactLayoutsUtil L V).map Prod.fst).Nodup ∧
    ∀ k, k ∈ (compactLayoutsUtil L V).map Prod.fst ↔
      k ∈ V ∧ (lookup L k).isSome = true :=
  compact_keys L V

/-- C5: under the data-model precondition (`w, h ≥ 1`, `x + w ≤ 12`; `x, y ≥ 0`
holds by the `Nat` representation), every output placement satisfies `0 ≤ x`,
`x + w ≤ 12` and `0 ≤ y`. -/
theorem c5_containment (L : Layout) (V : List Key)
    (hpre : ∀ kr ∈ L, 1 ≤ kr.2.w ∧ 1 ≤ kr.2.h ∧ kr.2.x + kr.2.w ≤ GRID_COLS) :
    ∀ kr ∈ compactLayoutsUtil L V,
      0 ≤ kr.2.x ∧ kr.2.x + kr.2.w ≤ GRID_COLS ∧ 0 ≤ kr.2.y := by
  intro kr hm
  exact ⟨Nat.zero_le _, compact_containment hpre kr hm, Nat.zero_le _⟩

theorem c5_containment_witness :
    (∀ kr ∈ exLayout, 1 ≤ kr.2.w ∧ 1 ≤ kr.2.h ∧ kr.2.x + kr.2.w ≤ GRID_COLS) ∧
    ∀ kr ∈ compactLayoutsUtil exLayout exVisible,
      0 ≤ kr.2.x ∧ kr.2.x + kr.2.w ≤ GRID_COLS ∧ 0 ≤ kr.2.y :=
  ⟨by decide, c5_containment exLayout exVisible (by decide)⟩

/-- C6: `findNextGridPosition` always returns a value: either the
lexicographically least `(y, x)` with `y < 100` whose footprint fits within
the 12 columns against the occupancy derived from the layout, or — exactly
when no position within the 100-row bound fits — the fallback
`(x 0, y 2 · #entries)`. -/
theorem c6_find_slot_total (L : Layout) (w h : Nat) :
    (slotFits L w h (findNextGridPosition L w h).1 (findNextGridPosition L w h).2 ∧
      (findNextGridPosition L w h).2 < 100 ∧
      ∀ y x, y < 100 →
        (y < (findNextGridPosition L w h).2 ∨
          (y = (findNextGridPosition L w h).2 ∧ x < (findNextGridPosition L w h).1)) →
        ¬ slotFits L w h x y) ∨
    ((∀ y x, y < 100 → ¬ slotFits L w h x y) ∧
      findNextGridPosition L w h = (0, 2 * L.length)) :=
  findNextGridPosition_characterization L w h

/-- C7: the layout loader is total and matches the claimed case analysis: an
object value is used directly, a string value is parsed and used only when
parsing yields a (non-null) object, and every other case (absent value, parse
failure, non-object parse result, other primitives) yields the empty layout.
The hypothesis pins the abstract parser to `JSON.parse`'s behaviour on `""`,
the one string the source short-circuits as falsy before parsing. -/
theorem c7_loader_total (parse : String → Option JSVal) (v : Option JSVal)
    (hparse : parse "" = none) :
    parseWidgetLayouts parse v = loaderSpec parse v :=
  parseWidgetLayouts_eq_loaderSpec parse hparse v

theorem c7_loader_witness :
    parseNone "" = none ∧
    parseWidgetLayouts parseNone (some (.jobj exLayout)) =
      loaderSpec parseNone (some (.jobj exLayout)) :=
  ⟨rfl, c7_loader_total parseNone (some (.jobj exLayout)) rfl⟩

/-- C8: compaction changes only positions — every output placement keeps the
width and height the widget had in the input layout. -/
theorem c8_sizes_preserved (L : Layout) (V : List Key) (k : Key) (r : Rect)
    (h : lookup (compactLayoutsUtil L V) k = some r) :
    ∃ r₀, lookup L k = some r₀ ∧ r.w = r₀.w ∧ r.h = r₀.h :=
  compact_preserves_size h

theorem c8_sizes_witness :
    lookup (compactLayoutsUtil exLayout exVisible) "B" = some ⟨3, 0, 3, 2⟩ ∧
    ∃ r₀, lookup exLayout "B" = some r₀ ∧ (3 : Nat) = r₀.w ∧ (2 : Nat) = r₀.h := by
  refine ⟨by decide, ?_⟩
  exact c8_sizes_preserved exLayout exVisible "B" ⟨3, 0, 3, 2⟩ (by decide)

/-- C9: on the spec's example input, compaction keeps A at `(0, 0)` and lifts
B to `(x 3, y 0)`, both with width 3 and height 2. -/
theorem c9_example :
    lookup (compactLayoutsUtil exLayout exVisible) "A" = some ⟨0, 0, 3, 2⟩ ∧
    lookup (compactLayoutsUtil exLayout exVisible) "B" = some ⟨3, 0, 3, 2⟩ := by
  decide

/-- C10: on the empty layout `findNextGridPosition` returns the origin for
every requested width and height — by the scan when the width fits, and by
the fallback `(0, 2 · 0)` when the width exceeds the column count. -/
theorem c10_empty_layout_origin (w h : Nat) :
    findNextGridPosition [] w h = (0, 0) :=
  findNextGridPosition_nil w h

end DashGrid
